import Mathlib

/-!
Verification of the stark101rs core: prime-field arithmetic over p = 3·2^30 + 1
(src/field.rs) and the Merkle commitment scheme (src/merkle.rs).

Modelling conventions:
* Rust u32 values are modelled as Nat together with explicit bounds.  Where the
  source performs u32 arithmetic whose intermediate can exceed u32::MAX we model
  the operation as an Option-valued checked operation (none = the arithmetic
  overflow abort of an overflow-checked build); where the divergent release-mode
  wraparound result is itself of interest we additionally model the wrapping
  variant with an explicit mod 2^32.
* The widened u64 intermediates of mul and pow cannot overflow (a product of two
  numbers below 2^32 is below 2^64), so those operations are total; the cast of
  the reduced u64 result back to u32 is modelled by an explicit mod 2^32.
* The hash primitive (sha256::digest in the source) is an injected external
  dependency per the specification, so the Merkle development is parameterised
  by an arbitrary digest function on strings.
* The HashMap facts is modelled as an association list onto which each insert
  conses the new binding; lookup takes the first (most recent) binding, matching
  HashMap insert-overwrites semantics.
* The u32 expression (data.len() as f32).log2().ceil() as u32 that sizes the
  leaf array in MerkleTree::new goes through a lossy usize to f32 cast and an
  unspecified-precision libm log2, so its value is platform-dependent and for
  lengths of at least 2^24 + 1 provably falls below the exact ceiling log2,
  making Vec::resize truncate the data (claim C8).  The tree model therefore
  takes that exponent as an explicit parameter h, models resize as exact
  truncate-or-pad, and the Merkle theorems are proved for every h.  The
  separate f64 height expression is modelled by the exact ceiling log2
  (executable clog2, proved equal to Nat.clog 2), exact below length 2^53.
* Recursions that the source drives by a loop or by heap-index recursion are
  given a structural fuel argument so that every definition evaluates by the
  kernel; fuel is always instantiated generously and congruence lemmas below
  show the result does not depend on it.
-/

/-- The field modulus 3·2^30 + 1 used by FieldElement (field.rs line 17). -/
def p : Nat := 3 * 2 ^ 30 + 1

/-- A field element: the stored u32 value, together with the invariant that it
is fully reduced modulo p. Every constructor of the source reduces via
FieldElement::new, so the invariant holds for every reachable value. -/
structure FieldElement where
  val : Nat
  isLt : val < p

instance : DecidableEq FieldElement := fun a b =>
  if h : a.val = b.val then
    isTrue (by cases a; cases b; cases h; rfl)
  else
    isFalse (by intro hh; cases hh; exact h rfl)

namespace FieldElement

/-- FieldElement::new: reduce an arbitrary value modulo p (field.rs 16-24). -/
def new (v : Nat) : FieldElement := ⟨v % p, Nat.mod_lt v (by decide)⟩

/-- FieldElement::zero (field.rs 26-28). -/
def zero : FieldElement := new 0

/-- FieldElement::one (field.rs 30-32). -/
def one : FieldElement := new 1

/-- The while loop of FieldElement::pow (field.rs 49-62): square-and-multiply
with every product taken through a u64 intermediate and reduced mod p.  The
source loop runs until the exponent is zero; fuel is structural and any fuel
at least the exponent suffices (the exponent at least halves every step). -/
def powLoop : Nat → Nat → Nat → Nat → Nat
  | 0, _, result, _ => result
  | fuel + 1, base, result, exponent =>
    if exponent = 0 then result
    else
      powLoop fuel (base * base % p)
        (if exponent % 2 = 1 then result * base % p else result) (exponent / 2)

/-- FieldElement::pow (field.rs 49-62). -/
def pow (a : FieldElement) (e : Nat) : FieldElement := new (powLoop e a.val 1 e)

/-- FieldElement::inverse (field.rs 41-47): none models the
panic (DivisionByZero) on the zero element, otherwise pow (p - 2). -/
def inverse (a : FieldElement) : Option FieldElement :=
  if a.val = 0 then none else some (pow a (p - 2))

/-- The impl Add for FieldElement (field.rs 105-111), overflow-checked: the sum
self.val + other.val is computed in u32, so in an overflow-checked build the
operation aborts (none) when the sum reaches 2^32.  AddAssign (field.rs
143-147) computes the identical expression. -/
def add (a b : FieldElement) : Option FieldElement :=
  if a.val + b.val < 2 ^ 32 then some (new ((a.val + b.val) % p)) else none

/-- The impl Add for FieldElement under release-mode wrapping semantics: the
u32 sum wraps mod 2^32 before the reduction mod p. -/
def addWrap (a b : FieldElement) : FieldElement :=
  new ((a.val + b.val) % 2 ^ 32 % p)

/-- The impl Sub for FieldElement (field.rs 113-123), overflow-checked: when
the minuend is smaller the source computes self.p + self.val - other.val in
u32, whose intermediate p + self.val overflows u32 (abort, none) when
self.val ≥ 2^32 - p.  SubAssign (field.rs 149-157) computes the identical
expression. -/
def sub (a b : FieldElement) : Option FieldElement :=
  if a.val < b.val then
    if p + a.val < 2 ^ 32 then some (new ((p + a.val - b.val) % p)) else none
  else some (new ((a.val - b.val) % p))

/-- The impl Mul for FieldElement (field.rs 125-132): the product is taken in
u64 (it cannot overflow: both factors are below 2^32), reduced mod p, and the
result cast back to u32 (the explicit mod 2^32; exact since p < 2^32). -/
def mul (a b : FieldElement) : FieldElement :=
  new (a.val * b.val % p % 2 ^ 32)

/-- The impl Div for FieldElement (field.rs 134-141): a / b =
a * b.inverse(), inheriting the DivisionByZero abort from inverse. -/
def div (a b : FieldElement) : Option FieldElement :=
  match inverse b with
  | none => none
  | some binv => some (mul a binv)

/-- FieldElement::is_order (field.rs 73-87) for n ≥ 1 (the source asserts
n >= 1): self.pow(n) must equal one, and the loop over i in 2..n rejects any
divisor i of n with self.pow(i) equal to one. -/
def is_order (a : FieldElement) (n : Nat) : Bool :=
  if pow a n = one then
    (List.range' 2 (n - 2)).all fun i => decide ¬(n % i = 0 ∧ pow a i = one)
  else false

end FieldElement

/-- The property the specification ascribes to is_order: n is exactly the
multiplicative order of a, i.e. the smallest positive m with a.pow(m) = one. -/
def exactOrder (a : FieldElement) (n : Nat) : Prop :=
  FieldElement.pow a n = FieldElement.one ∧
    ∀ m, m < n → 0 < m → FieldElement.pow a m ≠ FieldElement.one

instance (a : FieldElement) (n : Nat) : Decidable (exactOrder a n) :=
  inferInstanceAs (Decidable (_ ∧ ∀ m, m < n → 0 < m → _ ≠ _))

/-- Serialization of a leaf: the decimal rendering of the stored value, the
Display impl of FieldElement (field.rs 173-177). -/
def feToString (a : FieldElement) : String := Nat.repr a.val

/-- One entry of the facts map: the digest key together with the pair of
inputs that hashed to it (merkle.rs line 9). -/
abbrev FactEntry := String × String × String

/-- The MerkleTree record (merkle.rs 5-10): padded leaf data, height, root
digest, and the facts map, modelled as an association list whose head is the
most recent insertion (HashMap insert overwrites, lookup prefers the head). -/
structure MerkleTree where
  data : List FieldElement
  height : Nat
  root : String
  facts : List FactEntry
deriving DecidableEq

/-- MerkleTree::recursive_build_tree (merkle.rs 33-52): heap-style recursion
with node 1 the root, node k with children 2k and 2k+1, and leaves at indices
from data.length up; a leaf inserts (hash, serialized leaf, empty string), an
inner node hashes the concatenation of the children digests, left first.  Fuel
is structural; congruence lemmas below show any sufficient fuel computes the
same result. -/
def buildNode (digest : String → String) (data : List FieldElement) :
    Nat → Nat → List FactEntry → String × List FactEntry
  | 0, _, facts => ("", facts)
  | fuel + 1, nodeId, facts =>
    if data.length ≤ nodeId then
      let leafData := feToString (data.getD (nodeId - data.length) FieldElement.zero)
      let h := digest leafData
      (h, (h, leafData, "") :: facts)
    else
      let l := buildNode digest data fuel (2 * nodeId) facts
      let r := buildNode digest data fuel (2 * nodeId + 1) l.2
      let h := digest (l.1 ++ r.1)
      (h, (h, l.1, r.1) :: r.2)

/-- The digest of heap node nodeId of the tree over the given (padded) data:
the same recursion as buildNode but without the facts accumulator. -/
def nodeHashAux (digest : String → String) (data : List FieldElement) :
    Nat → Nat → String
  | 0, _ => ""
  | fuel + 1, nodeId =>
    if data.length ≤ nodeId then
      digest (feToString (data.getD (nodeId - data.length) FieldElement.zero))
    else
      digest (nodeHashAux digest data fuel (2 * nodeId) ++
        nodeHashAux digest data fuel (2 * nodeId + 1))

/-- The canonical node digest, with the standard fuel data.length (sufficient
for every node id of the tree, see the congruence lemmas below). -/
def nodeHash (digest : String → String) (data : List FieldElement) (i : Nat) : String :=
  nodeHashAux digest data data.length i

/-- Executable ceiling base-2 logarithm (proved equal to Nat.clog 2 below).
This is the exact value of the f64 height expression
(data.len() as f64).log2().ceil() of merkle.rs line 16, whose cast is exact
for every length below 2^53.  It is NOT in general the value of the separate
f32 expression of line 15 that sizes the leaf array: the usize to f32 cast
rounds (ties to even), so for instance at length 2^24 + 1 that expression
yields 24 while the exact ceiling log2 is 25.  The tree model below therefore
takes the f32-computed exponent as an explicit parameter. -/
def clog2Aux : Nat → Nat → Nat
  | 0, _ => 0
  | fuel + 1, n => if n ≤ 1 then 0 else clog2Aux fuel ((n + 1) / 2) + 1

def clog2 (n : Nat) : Nat := clog2Aux n n

/-- MerkleTree::new (merkle.rs 13-27).  The parameter h stands for the value
of the u32 expression (data.len() as f32).log2().ceil() as u32 of line 15,
which depends on the platform's f32 rounding and libm and can fall below the
exact ceiling log2 (at data.len() = 2^24 + 1 the cast rounds to 2^24 and h is
24); the theorems below hold for every h, hence for the platform's value.
none models the assert on empty input and, for h ≥ 32, the u32 overflow abort
of 2u32.pow(h).  Vec::resize to 2^h is modelled exactly: it truncates when
2^h is below the input length and pads with field zero otherwise.  The stored
height is the separate f64 expression of line 16, exact ceiling log2. -/
def merkleNew (digest : String → String) (h : Nat) (data : List FieldElement) :
    Option MerkleTree :=
  if data.isEmpty ∨ 32 ≤ h then none
  else
    let numLeaves := 2 ^ h
    let dataPadded :=
      data.take numLeaves ++ List.replicate (numLeaves - data.length) FieldElement.zero
    let b := buildNode digest dataPadded dataPadded.length 1 []
    some ⟨dataPadded, clog2 data.length, b.1, b.2⟩

/-- The binary digits of n after its leading one bit, most significant first:
the model of format bits with skip(1) in merkle.rs 60 and 84. -/
def pathBitsAux : Nat → Nat → List Bool
  | 0, _ => []
  | fuel + 1, n => if n ≤ 1 then [] else pathBitsAux fuel (n / 2) ++ [decide (n % 2 = 1)]

def pathBits (n : Nat) : List Bool := pathBitsAux n n

/-- The walk of MerkleTree::get_authentication_path (merkle.rs 60-70): for
each bit look the current digest up in the facts map; on bit 0 record the
right child and descend left, on bit 1 record the left child and descend
right.  none models the unwrap panic on a failed lookup. -/
def authPathLoop (facts : List FactEntry) : List Bool → String → Option (List String)
  | [], _ => some []
  | b :: bs, cur =>
    match facts.find? (fun e => e.1 == cur) with
    | none => none
    | some e =>
      if b then (authPathLoop facts bs e.2.2).map (fun rest => e.2.1 :: rest)
      else (authPathLoop facts bs e.2.1).map (fun rest => e.2.2 :: rest)

/-- MerkleTree::get_authentication_path (merkle.rs 54-72): none models the
IndexError assert for leaf_id out of range of the padded data. -/
def getAuthenticationPath (t : MerkleTree) (leafId : Nat) : Option (List String) :=
  if leafId < t.data.length then
    authPathLoop t.facts (pathBits (leafId + t.data.length)) t.root
  else none

/-- The authentication path as the claim describes it: walking the bits of the
node id most-significant-first from the root, record the digest of the right
sibling and descend left on bit 0, record the left sibling and descend right
on bit 1. -/
def authSiblings (digest : String → String) (data : List FieldElement) :
    Nat → List Bool → List String
  | _, [] => []
  | i, b :: bs =>
    (if b then nodeHash digest data (2 * i) else nodeHash digest data (2 * i + 1)) ::
      authSiblings digest data (2 * i + (if b then 1 else 0)) bs

/-- The digest chain replay of verify_decommitment (merkle.rs 83-96): starting
from the hash of the serialized leaf value, fold over the bits of
leaf_id + 2 ^ path.length after the leading bit, taken in reverse, zipped with
the reversed path; on bit 0 the running digest is the left input, on bit 1 the
right. -/
def replayChain (digest : String → String) (leafId : Nat) (leafData : FieldElement)
    (path : List String) : String :=
  ((pathBits (leafId + 2 ^ path.length)).reverse.zip path.reverse).foldl
    (fun cur bp => if bp.1 then digest (bp.2 ++ cur) else digest (cur ++ bp.2))
    (digest (feToString leafData))

/-- verify_decommitment (merkle.rs 75-98), overflow-checked: the source
computes 2u32.pow(path.len()) and leaf_id + leaf_num in u32, so an
overflow-checked build aborts (none) when path.len() is at least 32 or the
node id reaches 2^32; otherwise the boolean compares the replayed chain with
the claimed root. -/
def verifyDecommitment (digest : String → String) (leafId : Nat)
    (leafData : FieldElement) (path : List String) (root : String) : Option Bool :=
  if path.length < 32 ∧ leafId + 2 ^ path.length < 2 ^ 32 then
    some (decide (replayChain digest leafId leafData path = root))
  else none

/-- Collision-freedom of a facts map: entries with equal digest keys are
equal.  This is the guarantee an ideal (collision-resistant) hash provides to
the content-addressed facts map; every lookup then returns the recorded pair
of inputs of that digest. -/
def FactsFunctional (facts : List FactEntry) : Prop :=
  ∀ e1, e1 ∈ facts → ∀ e2, e2 ∈ facts → e1.1 = e2.1 → e1 = e2

instance (facts : List FactEntry) : Decidable (FactsFunctional facts) :=
  inferInstanceAs (Decidable (∀ e1, e1 ∈ facts → ∀ e2, e2 ∈ facts → _ → _ = _))

/-- The heap node id reached from node i by descending along a list of bits:
left child on false, right child on true. -/
def walk (i : Nat) (bits : List Bool) : Nat :=
  bits.foldl (fun a b => 2 * a + (if b then 1 else 0)) i

/-- A concrete two-leaf tree over the identity digest, used by the witnesses:
the tree the model builds for exponent 1 and data [new 1, new 2]. -/
def treeTwo : MerkleTree :=
  { data := [FieldElement.new 1, FieldElement.new 2]
    height := 1
    root := "12"
    facts := [("12", "1", "2"), ("2", "2", ""), ("1", "1", "")] }


theorem FieldElement.ext {a b : FieldElement} (h : a.val = b.val) : a = b := by
  cases a; cases b; cases h; rfl

theorem FieldElement.val_new (v : Nat) : (FieldElement.new v).val = v % p := rfl

theorem p_pos : 0 < p := by decide

theorem one_lt_p : 1 < p := by decide

theorem FieldElement.val_one_eq : FieldElement.one.val = 1 := by decide

theorem FieldElement.val_zero_eq : FieldElement.zero.val = 0 := by decide

/-- The loop invariant of pow: the loop computes result · base ^ exponent
modulo p, provided the fuel is at least the exponent. -/
theorem FieldElement.powLoop_modEq :
    ∀ (fuel e b r : Nat), e ≤ fuel → powLoop fuel b r e ≡ r * b ^ e [MOD p] := by
  intro fuel
  induction fuel with
  | zero =>
    intro e b r he
    interval_cases e
    simpa [powLoop] using Nat.ModEq.refl r
  | succ f ih =>
    intro e b r he
    rw [powLoop]
    by_cases h0 : e = 0
    · simpa [h0] using Nat.ModEq.refl r
    · simp only [if_neg h0]
      have hdiv : e / 2 ≤ f := by
        have := Nat.div_lt_self (Nat.pos_of_ne_zero h0) (show 1 < 2 by norm_num)
        omega
      have step := ih (e / 2) (b * b % p) (if e % 2 = 1 then r * b % p else r) hdiv
      refine step.trans ?_
      have hbb : (b * b % p : Nat) ^ (e / 2) ≡ (b * b) ^ (e / 2) [MOD p] :=
        (Nat.mod_modEq (b * b) p).pow (e / 2)
      rcases Nat.mod_two_eq_zero_or_one e with hpar | hpar
      · have hif : (if e % 2 = 1 then r * b % p else r) = r := by
          rw [hpar]
          norm_num
        rw [hif]
        have h2 : r * (b * b % p) ^ (e / 2) ≡ r * (b * b) ^ (e / 2) [MOD p] :=
          (Nat.ModEq.refl r).mul hbb
        have heq : r * (b * b) ^ (e / 2) = r * b ^ e := by
          rw [← pow_two, ← pow_mul, show 2 * (e / 2) = e by omega]
        rw [heq] at h2
        exact h2
      · have hif : (if e % 2 = 1 then r * b % p else r) = r * b % p := by
          rw [hpar, if_pos rfl]
        rw [hif]
        have h2 : (r * b % p) * (b * b % p) ^ (e / 2) ≡ (r * b) * (b * b) ^ (e / 2) [MOD p] :=
          (Nat.mod_modEq (r * b) p).mul hbb
        have heq : (r * b) * (b * b) ^ (e / 2) = r * b ^ e := by
          rw [← pow_two, ← pow_mul, mul_assoc, ← pow_succ',
            show 2 * (e / 2) + 1 = e by omega]
        rw [heq] at h2
        exact h2

/-- The value computed by pow is the modular power of the stored value. -/
theorem FieldElement.val_pow (a : FieldElement) (e : Nat) :
    (pow a e).val = a.val ^ e % p := by
  have h := powLoop_modEq e e a.val 1 le_rfl
  simpa [pow, val_new, Nat.ModEq] using h

/-- The powLoop computation, cast into ZMod p, is the monoid power. -/
theorem FieldElement.powLoop_cast (b e : Nat) :
    ((powLoop e b 1 e : Nat) : ZMod p) = ((b : Nat) : ZMod p) ^ e := by
  have h2 : powLoop e b 1 e ≡ b ^ e [MOD p] := by
    simpa using powLoop_modEq e e b 1 le_rfl
  calc ((powLoop e b 1 e : Nat) : ZMod p)
      = ((b ^ e : Nat) : ZMod p) := (ZMod.natCast_eq_natCast_iff _ _ _).mpr h2
    _ = ((b : Nat) : ZMod p) ^ e := by push_cast; ring

/-- The modulus 3·2^30 + 1 is prime, by the Lucas primality certificate with
witness 5: 5^(p-1) = 1 while 5^((p-1)/2) and 5^((p-1)/3) differ from 1, and
2 and 3 are the only prime divisors of p - 1 = 3·2^30.  The three power
computations are carried out by the kernel through powLoop. -/
theorem p_prime : Nat.Prime p := by
  apply lucas_primality p ((5 : Nat) : ZMod p)
  · rw [← FieldElement.powLoop_cast]
    have h5 : FieldElement.powLoop (p - 1) 5 1 (p - 1) = 1 := by decide
    rw [h5, Nat.cast_one]
  · intro q hq hqd
    have hp1 : p - 1 = 3 * 2 ^ 30 := by decide
    rw [hp1] at hqd
    have hq23 : q = 2 ∨ q = 3 := by
      rcases (Nat.Prime.dvd_mul hq).mp hqd with h3 | h2
      · right
        exact (Nat.prime_dvd_prime_iff_eq hq (by norm_num)).mp h3
      · left
        exact (Nat.prime_dvd_prime_iff_eq hq (by norm_num)).mp (hq.dvd_of_dvd_pow h2)
    have hne : ∀ E : Nat, FieldElement.powLoop E 5 1 E % p ≠ 1 % p →
        ((5 : Nat) : ZMod p) ^ E ≠ 1 := by
      intro E hE hcontra
      rw [← FieldElement.powLoop_cast, ← Nat.cast_one] at hcontra
      exact hE ((ZMod.natCast_eq_natCast_iff _ _ _).mp hcontra)
    rcases hq23 with rfl | rfl
    · exact hne ((p - 1) / 2) (by decide)
    · exact hne ((p - 1) / 3) (by decide)

/-- Fermat's little theorem at the level of stored values: for 0 < v < p,
v^(p-1) mod p = 1. -/
theorem fermat_val (v : Nat) (h1 : 0 < v) (h2 : v < p) : v ^ (p - 1) % p = 1 := by
  haveI : Fact (Nat.Prime p) := ⟨p_prime⟩
  have hvz : ((v : Nat) : ZMod p) ≠ 0 := by
    intro hc
    have hdvd := (ZMod.natCast_zmod_eq_zero_iff_dvd v p).mp hc
    have := Nat.le_of_dvd h1 hdvd
    omega
  have hf : ((v : Nat) : ZMod p) ^ (p - 1) = 1 := ZMod.pow_card_sub_one_eq_one hvz
  have hcast : ((v ^ (p - 1) : Nat) : ZMod p) = ((1 : Nat) : ZMod p) := by
    push_cast
    simpa using hf
  have hmod := (ZMod.natCast_eq_natCast_iff _ _ _).mp hcast
  have h1p : 1 % p = 1 := Nat.mod_eq_of_lt one_lt_p
  unfold Nat.ModEq at hmod
  rw [h1p] at hmod
  exact hmod

/-- The value stored by mul is the modular product of the stored values (the
final mod 2^32 cast is exact because the reduced product is below p < 2^32). -/
theorem FieldElement.val_mul (a b : FieldElement) :
    (mul a b).val = a.val * b.val % p := by
  have hlt : a.val * b.val % p < p := Nat.mod_lt _ p_pos
  have h32 : a.val * b.val % p < 2 ^ 32 := lt_trans hlt (by decide)
  rw [mul, val_new, Nat.mod_eq_of_lt h32, Nat.mod_mod_of_dvd _ dvd_rfl]

/-- Equality of field elements is equality of stored values. -/
theorem FieldElement.eq_iff_val (a b : FieldElement) : a = b ↔ a.val = b.val := by
  constructor
  · intro h
    rw [h]
  · exact ext

/-- Transfer: pow reaches one exactly when the corresponding ZMod p power is 1. -/
theorem FieldElement.pow_eq_one_iff (a : FieldElement) (e : Nat) :
    pow a e = one ↔ ((a.val : Nat) : ZMod p) ^ e = 1 := by
  rw [eq_iff_val, val_pow, val_one_eq, ← FieldElement.powLoop_cast]
  have h2 : powLoop e a.val 1 e ≡ a.val ^ e [MOD p] := by
    simpa using powLoop_modEq e e a.val 1 le_rfl
  unfold Nat.ModEq at h2
  rw [← Nat.cast_one (R := ZMod p), ZMod.natCast_eq_natCast_iff, Nat.ModEq, h2,
    Nat.mod_eq_of_lt one_lt_p]

/-- The cast of a stored value to ZMod p is 1 exactly for the one element. -/
theorem FieldElement.cast_eq_one_iff (a : FieldElement) :
    ((a.val : Nat) : ZMod p) = 1 ↔ a = one := by
  haveI : Fact (1 < p) := ⟨one_lt_p⟩
  constructor
  · intro h
    apply ext
    rw [val_one_eq]
    have := congrArg ZMod.val h
    rwa [ZMod.val_cast_of_lt a.isLt, ZMod.val_one] at this
  · intro h
    rw [h, val_one_eq, Nat.cast_one]

/-- The boolean is_order unfolded to the proposition its loop decides. -/
theorem FieldElement.is_order_iff (a : FieldElement) (n : Nat) :
    is_order a n = true ↔
      (pow a n = one ∧ ∀ i, 2 ≤ i → i < n → n % i = 0 → pow a i ≠ one) := by
  unfold is_order
  by_cases h : pow a n = one
  · rw [if_pos h, List.all_eq_true]
    constructor
    · intro hall
      refine ⟨h, ?_⟩
      intro i h2 hin hdvd hpow
      have hmem : i ∈ List.range' 2 (n - 2) := by
        rw [List.mem_range']
        exact ⟨i - 2, by omega, by omega⟩
      have := hall i hmem
      rw [decide_eq_true_eq] at this
      exact this ⟨hdvd, hpow⟩
    · rintro ⟨-, hscan⟩
      intro x hx
      rw [decide_eq_true_eq]
      rw [List.mem_range'] at hx
      rcases hx with ⟨i, hi, rfl⟩
      rintro ⟨hd, hp⟩
      exact hscan (2 + 1 * i) (by omega) (by omega) hd hp
  · rw [if_neg h]
    constructor
    · intro hc
      exact (Bool.false_ne_true hc).elim
    · rintro ⟨h1, -⟩
      exact (h h1).elim

/-- Fermat inverse law on the implementation: multiplying a nonzero element by
its pow (p - 2) power yields one. -/
theorem FieldElement.mul_pow_fermat (a : FieldElement) (h : a.val ≠ 0) :
    mul a (pow a (p - 2)) = one := by
  apply ext
  rw [val_mul, val_pow, val_one_eq]
  have hm : a.val * (a.val ^ (p - 2) % p) ≡ a.val * a.val ^ (p - 2) [MOD p] :=
    (Nat.ModEq.refl a.val).mul (Nat.mod_modEq _ _)
  have h2p : 2 ≤ p := by decide
  have heq : a.val * a.val ^ (p - 2) = a.val ^ (p - 1) := by
    rw [← pow_succ', show p - 2 + 1 = p - 1 by omega]
  calc a.val * (a.val ^ (p - 2) % p) % p
      = a.val * a.val ^ (p - 2) % p := hm
    _ = a.val ^ (p - 1) % p := by rw [heq]
    _ = 1 := fermat_val a.val (Nat.pos_of_ne_zero h) a.isLt

/-- An element equals the zero element exactly when its stored value is 0. -/
theorem FieldElement.eq_zero_iff (a : FieldElement) : a = zero ↔ a.val = 0 := by
  rw [eq_iff_val, val_zero_eq]

/-- Claim C1 (status code_bug): evaluation of the impl Add expression at
a = b = FieldElement::new(p - 1).  The u32 sum reaches 2^32 (overflow abort in
a checked build, so the checked model returns none); the release wraparound
value is 2147483648, whereas the exact modular sum required by the claim is
3221225471; the two disagree, so an arithmetic overflow is observable. -/
theorem c1_add_overflows :
    FieldElement.add (FieldElement.new (p - 1)) (FieldElement.new (p - 1)) = none ∧
    2 ^ 32 ≤ (FieldElement.new (p - 1)).val + (FieldElement.new (p - 1)).val ∧
    (FieldElement.addWrap (FieldElement.new (p - 1)) (FieldElement.new (p - 1))).val
      = 2147483648 ∧
    ((FieldElement.new (p - 1)).val + (FieldElement.new (p - 1)).val) % p = 3221225471 ∧
    (2147483648 : Nat) ≠ 3221225471 := by decide

/-- Claim C4 counterexample: at a.val = 1073741823 = 2^32 - p and
b.val = 1073741824 the minuend is smaller, and the intermediate p + a.val of
the source reaches 2^32, so the overflow-checked subtraction aborts, refuting
the never-aborts part of the claim. -/
theorem c4_sub_aborts_counterexample :
    FieldElement.sub (FieldElement.new 1073741823) (FieldElement.new 1073741824) = none ∧
    (FieldElement.new 1073741823).val < (FieldElement.new 1073741824).val ∧
    2 ^ 32 ≤ p + (FieldElement.new 1073741823).val := by decide

/-- Claim C4 as amended: whenever the minuend is at least the subtrahend, or
the intermediate p + a.val fits in u32, subtraction returns exactly the
reduced modular difference (a.val - b.val) mod p, represented as
(p + a.val - b.val) mod p over Nat, and the result lies in the range of the
field. -/
theorem c4_sub_correct (a b : FieldElement)
    (h : b.val ≤ a.val ∨ p + a.val < 2 ^ 32) :
    FieldElement.sub a b = some (FieldElement.new ((p + a.val - b.val) % p)) ∧
      (p + a.val - b.val) % p < p := by
  refine ⟨?_, Nat.mod_lt _ p_pos⟩
  unfold FieldElement.sub
  by_cases hlt : a.val < b.val
  · have h32 : p + a.val < 2 ^ 32 := by
      rcases h with h | h
      · omega
      · exact h
    rw [if_pos hlt, if_pos h32]
  · rw [if_neg hlt]
    have hval : (a.val - b.val) % p = (p + a.val - b.val) % p := by
      rw [show p + a.val - b.val = p + (a.val - b.val) by omega, Nat.add_mod_left]
    rw [hval]

/-- Witness for the amended claim C4 at a = new 5, b = new 10 (the underflow
branch of the source, which adds p before subtracting). -/
theorem c4_sub_correct_witness :
    FieldElement.sub (FieldElement.new 5) (FieldElement.new 10) =
      some (FieldElement.new
        ((p + (FieldElement.new 5).val - (FieldElement.new 10).val) % p)) ∧
      (p + (FieldElement.new 5).val - (FieldElement.new 10).val) % p < p :=
  c4_sub_correct (FieldElement.new 5) (FieldElement.new 10) (by decide)

/-- Claim C5 counterexample: is_order accepts n = 2 for the one element, yet 2
is not the exact multiplicative order of one (the order is 1), because the
divisor scan of the source starts at 2 and never tests exponent 1. -/
theorem c5_is_order_counterexample :
    FieldElement.is_order FieldElement.one 2 = true ∧ ¬ exactOrder FieldElement.one 2 := by
  decide

/-- Claim C5 as amended: for every element other than one and every n ≥ 1,
is_order n decides exactly whether n is the multiplicative order of the
element (the smallest positive power reaching one). -/
theorem c5_is_order_exact (a : FieldElement) (n : Nat)
    (ha : a ≠ FieldElement.one) (hn : 1 ≤ n) :
    FieldElement.is_order a n = true ↔ exactOrder a n := by
  rw [FieldElement.is_order_iff]
  constructor
  · rintro ⟨h1, hscan⟩
    have hx1 : ((a.val : Nat) : ZMod p) ^ n = 1 := (FieldElement.pow_eq_one_iff a n).mp h1
    have hd : orderOf ((a.val : Nat) : ZMod p) ∣ n := orderOf_dvd_of_pow_eq_one hx1
    have hdle : orderOf ((a.val : Nat) : ZMod p) ≤ n := Nat.le_of_dvd (by omega) hd
    have hd1 : orderOf ((a.val : Nat) : ZMod p) ≠ 1 := by
      intro hc
      exact ha ((FieldElement.cast_eq_one_iff a).mp (orderOf_eq_one_iff.mp hc))
    have hd0 : orderOf ((a.val : Nat) : ZMod p) ≠ 0 := by
      intro hc
      rw [hc] at hd
      have := Nat.eq_zero_of_zero_dvd hd
      omega
    have hdn : orderOf ((a.val : Nat) : ZMod p) = n := by
      by_contra hne
      have hlt : orderOf ((a.val : Nat) : ZMod p) < n := lt_of_le_of_ne hdle hne
      have hmod : n % orderOf ((a.val : Nat) : ZMod p) = 0 :=
        Nat.mod_eq_zero_of_dvd hd
      have hnot := hscan (orderOf ((a.val : Nat) : ZMod p)) (by omega) hlt hmod
      exact hnot ((FieldElement.pow_eq_one_iff a _).mpr (pow_orderOf_eq_one _))
    refine ⟨h1, ?_⟩
    intro m hmn hm0 hpm
    have hdm : orderOf ((a.val : Nat) : ZMod p) ∣ m :=
      orderOf_dvd_of_pow_eq_one ((FieldElement.pow_eq_one_iff a m).mp hpm)
    have := Nat.le_of_dvd hm0 hdm
    omega
  · rintro ⟨h1, hmin⟩
    exact ⟨h1, fun i h2 hlt _ => hmin i hlt (by omega)⟩

/-- Witness for the amended claim C5: the element p - 1 has exact order 2, and
is_order certifies it. -/
theorem c5_is_order_exact_witness : exactOrder (FieldElement.new 3221225472) 2 :=
  (c5_is_order_exact (FieldElement.new 3221225472) 2 (by decide) (by decide)).mp (by decide)

/-- Claim C6: inverse fails (DivisionByZero, modelled none) exactly on the
zero element; on nonzero a it returns pow a (p - 2) and satisfies the inverse
law a * a.inverse() = one (via Fermat, using the primality of p); and div
returns a * b.inverse(), failing exactly when b is zero. -/
theorem c6_inverse_div_spec (a b : FieldElement) :
    (FieldElement.inverse a = none ↔ a = FieldElement.zero) ∧
    (a ≠ FieldElement.zero →
      FieldElement.inverse a = some (FieldElement.pow a (p - 2)) ∧
      FieldElement.mul a (FieldElement.pow a (p - 2)) = FieldElement.one) ∧
    (FieldElement.div a b = none ↔ b = FieldElement.zero) ∧
    (b ≠ FieldElement.zero →
      FieldElement.div a b = some (FieldElement.mul a (FieldElement.pow b (p - 2)))) := by
  have hinv : ∀ c : FieldElement, FieldElement.inverse c = none ↔ c = FieldElement.zero := by
    intro c
    unfold FieldElement.inverse
    by_cases hc : c.val = 0
    · rw [if_pos hc]
      simp [FieldElement.eq_zero_iff, hc]
    · rw [if_neg hc]
      simp [FieldElement.eq_zero_iff, hc]
  refine ⟨hinv a, ?_, ?_, ?_⟩
  · intro ha
    have hval : a.val ≠ 0 := fun hc => ha ((FieldElement.eq_zero_iff a).mpr hc)
    refine ⟨?_, FieldElement.mul_pow_fermat a hval⟩
    unfold FieldElement.inverse
    rw [if_neg hval]
  · unfold FieldElement.div
    by_cases hb : b.val = 0
    · rw [show FieldElement.inverse b = none from by unfold FieldElement.inverse; rw [if_pos hb]]
      simp [FieldElement.eq_zero_iff, hb]
    · rw [show FieldElement.inverse b = some (FieldElement.pow b (p - 2)) from by
        unfold FieldElement.inverse; rw [if_neg hb]]
      simp [FieldElement.eq_zero_iff, hb]
  · intro hb
    have hval : b.val ≠ 0 := fun hc => hb ((FieldElement.eq_zero_iff b).mpr hc)
    unfold FieldElement.div
    rw [show FieldElement.inverse b = some (FieldElement.pow b (p - 2)) from by
      unfold FieldElement.inverse; rw [if_neg hval]]

/-- Witness for claim C6 at a = new 6: the computed inverse satisfies the
inverse law. -/
theorem c6_inverse_div_spec_witness :
    FieldElement.mul (FieldElement.new 6) (FieldElement.pow (FieldElement.new 6) (p - 2))
      = FieldElement.one :=
  ((c6_inverse_div_spec (FieldElement.new 6) (FieldElement.new 2)).2.1 (by decide)).2

/-- Claim C7: mul computes the exact modular product (and its u64 intermediate
cannot overflow: the product of two reduced values is below 2^64), and pow
computes the exact modular power of the stored value by the square-and-multiply
loop whose every product goes through the same u64 reduction. -/
theorem c7_mul_pow_spec (a b : FieldElement) (e : Nat) :
    (FieldElement.mul a b).val = a.val * b.val % p ∧
    a.val * b.val < 2 ^ 64 ∧
    (FieldElement.pow a e).val = a.val ^ e % p := by
  refine ⟨FieldElement.val_mul a b, ?_, FieldElement.val_pow a e⟩
  have h1 : a.val * b.val ≤ (p - 1) * (p - 1) := by
    have ha := a.isLt
    have hb := b.isLt
    exact Nat.mul_le_mul (by omega) (by omega)
  exact lt_of_le_of_lt h1 (by decide)

/-- Claim C10: pow with exponent 0 returns one for every element (including
zero: the loop body never runs and the initial accumulator 1 is returned), and
pow is total with a fully reduced result for every element and exponent. -/
theorem c10_pow_zero_spec (a : FieldElement) :
    FieldElement.pow a 0 = FieldElement.one ∧
      ∀ e : Nat, (FieldElement.pow a e).val < p :=
  ⟨rfl, fun e => (FieldElement.pow a e).isLt⟩

/-- The executable ceiling log2 agrees with Nat.clog 2 whenever the fuel is at
least the argument. -/
theorem clog2Aux_eq : ∀ (fuel n : Nat), n ≤ fuel → clog2Aux fuel n = Nat.clog 2 n := by
  intro fuel
  induction fuel with
  | zero =>
    intro n hn
    interval_cases n
    rw [clog2Aux, Nat.clog_of_right_le_one (by omega)]
  | succ f ih =>
    intro n hn
    rw [clog2Aux]
    by_cases h1 : n ≤ 1
    · rw [if_pos h1, Nat.clog_of_right_le_one h1]
    · rw [if_neg h1, Nat.clog_of_two_le (by norm_num) (by omega), ih ((n + 1) / 2) (by omega),
        show n + 2 - 1 = n + 1 from by omega]

theorem clog2_eq (n : Nat) : clog2 n = Nat.clog 2 n := clog2Aux_eq n n le_rfl

/-- Any positive number is at most 2 to its predecessor. -/
theorem le_two_pow_pred (n : Nat) (h : 1 ≤ n) : n ≤ 2 ^ (n - 1) := by
  have := Nat.lt_two_pow (n - 1)
  omega

/-- pathBitsAux ignores its fuel once the fuel bounds the argument by a power
of two. -/
theorem pathBitsAux_congr :
    ∀ (f g n : Nat), n < 2 ^ f → n < 2 ^ g → pathBitsAux f n = pathBitsAux g n := by
  intro f
  induction f with
  | zero =>
    intro g n hf hg
    have hn : n = 0 := by simpa using hf
    subst hn
    cases g with
    | zero => rfl
    | succ g => rw [pathBitsAux, pathBitsAux, if_pos (by omega)]
  | succ f ih =>
    intro g n hf hg
    cases g with
    | zero =>
      have hn : n = 0 := by simpa using hg
      subst hn
      rw [pathBitsAux, pathBitsAux, if_pos (by omega)]
    | succ g =>
      rw [pathBitsAux, pathBitsAux]
      by_cases h1 : n ≤ 1
      · rw [if_pos h1, if_pos h1]
      · rw [if_neg h1, if_neg h1]
        have hpow : 2 ^ (f + 1) = 2 ^ f * 2 := by rw [pow_succ]
        have hpowg : 2 ^ (g + 1) = 2 ^ g * 2 := by rw [pow_succ]
        have h2f : n / 2 < 2 ^ f := by omega
        have h2g : n / 2 < 2 ^ g := by omega
        rw [ih g (n / 2) h2f h2g]

theorem pathBits_of_le_one (n : Nat) (h : n ≤ 1) : pathBits n = [] := by
  unfold pathBits
  interval_cases n
  · rfl
  · rw [pathBitsAux, if_pos (by omega)]

/-- The defining recurrence of pathBits for arguments at least 2. -/
theorem pathBits_eq (n : Nat) (h : 2 ≤ n) :
    pathBits n = pathBits (n / 2) ++ [decide (n % 2 = 1)] := by
  obtain ⟨f, rfl⟩ : ∃ f, n = f + 1 := ⟨n - 1, by omega⟩
  unfold pathBits
  rw [pathBitsAux, if_neg (by omega)]
  have hlt : (f + 1) / 2 < 2 ^ f := by
    have h1 := Nat.lt_two_pow ((f + 1) / 2)
    have h2 : 2 ^ ((f + 1) / 2) ≤ 2 ^ f := Nat.pow_le_pow_right (by norm_num) (by omega)
    omega
  rw [pathBitsAux_congr f ((f + 1) / 2) ((f + 1) / 2) hlt (Nat.lt_two_pow _)]

/-- The length of pathBits n is the bit length of n minus one. -/
theorem pathBits_length_of :
    ∀ (h n : Nat), 2 ^ h ≤ n → n < 2 ^ (h + 1) → (pathBits n).length = h := by
  intro h
  induction h with
  | zero =>
    intro n h1 h2
    have : n = 1 := by
      norm_num at h1 h2
      omega
    subst this
    rw [pathBits_of_le_one 1 le_rfl]
    rfl
  | succ h ih =>
    intro n h1 h2
    have hp1 : 2 ^ (h + 1) = 2 ^ h * 2 := by rw [pow_succ]
    have hp2 : 2 ^ (h + 2) = 2 ^ (h + 1) * 2 := by rw [pow_succ]
    have hge : 2 ≤ n := by
      have : 2 ≤ 2 ^ (h + 1) := by
        have : (2 : Nat) ^ 1 ≤ 2 ^ (h + 1) := Nat.pow_le_pow_right (by norm_num) (by omega)
        simpa using this
      omega
    rw [pathBits_eq n hge, List.length_append]
    have hd1 : 2 ^ h ≤ n / 2 := by omega
    have hd2 : n / 2 < 2 ^ (h + 1) := by omega
    rw [ih (n / 2) hd1 hd2]
    simp

theorem walk_nil (i : Nat) : walk i [] = i := rfl

theorem walk_cons (i : Nat) (b : Bool) (bs : List Bool) :
    walk i (b :: bs) = walk (2 * i + (if b then 1 else 0)) bs := rfl

theorem walk_append_single (i : Nat) (bs : List Bool) (b : Bool) :
    walk i (bs ++ [b]) = 2 * walk i bs + (if b then 1 else 0) := by
  unfold walk
  rw [List.foldl_append]
  rfl

/-- The node reached by a walk of k bits from node j lies in the k-th
generation of the subtree of j. -/
theorem walk_bounds :
    ∀ (bits : List Bool) (j : Nat),
      j * 2 ^ bits.length ≤ walk j bits ∧ walk j bits < (j + 1) * 2 ^ bits.length := by
  intro bits
  induction bits with
  | nil => intro j; simp [walk_nil]
  | cons b bs ih =>
    intro j
    rw [walk_cons]
    obtain ⟨ihl, ihr⟩ := ih (2 * j + (if b then 1 else 0))
    have hb : (if b then 1 else 0) ≤ 1 := by rcases b <;> simp
    constructor
    · calc j * 2 ^ (b :: bs).length = (2 * j) * 2 ^ bs.length := by
            rw [List.length_cons, pow_succ]
            ring
        _ ≤ (2 * j + (if b then 1 else 0)) * 2 ^ bs.length :=
            Nat.mul_le_mul_right _ (by omega)
        _ ≤ walk (2 * j + (if b then 1 else 0)) bs := ihl
    · calc walk (2 * j + (if b then 1 else 0)) bs
          < (2 * j + (if b then 1 else 0) + 1) * 2 ^ bs.length := ihr
        _ ≤ (2 * j + 2) * 2 ^ bs.length := Nat.mul_le_mul_right _ (by omega)
        _ = (j + 1) * 2 ^ (b :: bs).length := by
            rw [List.length_cons, pow_succ]
            ring

/-- Walking the bits of n below its leading one, from the root node 1, lands
exactly on node n. -/
theorem walk_pathBits : ∀ n : Nat, 1 ≤ n → walk 1 (pathBits n) = n := by
  intro n
  induction n using Nat.strong_induction_on with
  | _ n ih =>
    intro hn
    by_cases h1 : n ≤ 1
    · have : n = 1 := by omega
      subst this
      rw [pathBits_of_le_one 1 le_rfl, walk_nil]
    · rw [pathBits_eq n (by omega), walk_append_single,
        ih (n / 2) (by omega) (by omega)]
      rcases Nat.mod_two_eq_zero_or_one n with hpar | hpar
      · rw [hpar]
        norm_num
        omega
      · rw [hpar]
        norm_num
        omega

/-- A prefix of a walk computes the corresponding ancestor: dividing out one
power of two per remaining bit. -/
theorem walk_take :
    ∀ (bits : List Bool) (i t : Nat), t ≤ bits.length →
      walk i (bits.take t) = walk i bits / 2 ^ (bits.length - t) := by
  intro bits
  induction bits with
  | nil =>
    intro i t ht
    have : t = 0 := by simpa using ht
    subst this
    simp [walk_nil]
  | cons b bs ih =>
    intro i t ht
    cases t with
    | zero =>
      rw [List.take_zero, walk_nil, walk_cons]
      obtain ⟨hl, hr⟩ := walk_bounds bs (2 * i + (if b then 1 else 0))
      have hlen : (b :: bs).length - 0 = bs.length + 1 := by simp
      rw [hlen]
      have hp : 2 ^ (bs.length + 1) = 2 ^ bs.length * 2 := by rw [pow_succ]
      refine (Nat.div_eq_of_lt_le ?_ ?_).symm
      · calc i * 2 ^ (bs.length + 1) = (2 * i) * 2 ^ bs.length := by
              rw [hp]; ring
          _ ≤ (2 * i + (if b then 1 else 0)) * 2 ^ bs.length :=
              Nat.mul_le_mul_right _ (by omega)
          _ ≤ walk (2 * i + (if b then 1 else 0)) bs := hl
      · have hb : (if b then 1 else 0) ≤ 1 := by rcases b <;> simp
        calc walk (2 * i + (if b then 1 else 0)) bs
            < (2 * i + (if b then 1 else 0) + 1) * 2 ^ bs.length := hr
          _ ≤ (2 * i + 2) * 2 ^ bs.length := Nat.mul_le_mul_right _ (by omega)
          _ = (i + 1) * 2 ^ (bs.length + 1) := by rw [hp]; ring
    | succ t =>
      rw [List.take_succ_cons, walk_cons, walk_cons,
        ih (2 * i + (if b then 1 else 0)) t (by simpa using ht)]
      congr 1
      simp

/-- nodeHashAux ignores its fuel as soon as the fuel reaches every leaf below
the node: data.length ≤ 2 ^ fuel · nodeId. -/
theorem nodeHashAux_congr (digest : String → String) (data : List FieldElement) :
    ∀ (f g i : Nat), data.length ≤ 2 ^ f * i → data.length ≤ 2 ^ g * i →
      nodeHashAux digest data (f + 1) i = nodeHashAux digest data (g + 1) i := by
  intro f
  induction f with
  | zero =>
    intro g i hf hg
    have hi : data.length ≤ i := by simpa using hf
    conv_lhs => rw [nodeHashAux]
    conv_rhs => rw [nodeHashAux]
    rw [if_pos hi, if_pos hi]
  | succ f ih =>
    intro g i hf hg
    by_cases hi : data.length ≤ i
    · conv_lhs => rw [nodeHashAux]
      conv_rhs => rw [nodeHashAux]
      rw [if_pos hi, if_pos hi]
    · cases g with
      | zero =>
        have : data.length ≤ i := by simpa using hg
        exact absurd this hi
      | succ g =>
        conv_lhs => rw [nodeHashAux]
        conv_rhs => rw [nodeHashAux]
        rw [if_neg hi, if_neg hi]
        have hfl : data.length ≤ 2 ^ f * (2 * i) := by
          rw [pow_succ] at hf
          calc data.length ≤ 2 ^ f * 2 * i := hf
            _ = 2 ^ f * (2 * i) := by ring
        have hgl : data.length ≤ 2 ^ g * (2 * i) := by
          rw [pow_succ] at hg
          calc data.length ≤ 2 ^ g * 2 * i := hg
            _ = 2 ^ g * (2 * i) := by ring
        have hfr : data.length ≤ 2 ^ f * (2 * i + 1) :=
          le_trans hfl (Nat.mul_le_mul_left _ (by omega))
        have hgr : data.length ≤ 2 ^ g * (2 * i + 1) :=
          le_trans hgl (Nat.mul_le_mul_left _ (by omega))
        rw [ih g (2 * i) hfl hgl, ih g (2 * i + 1) hfr hgr]

/-- The canonical fuel data.length is sufficient for every positive node id. -/
theorem nodeHash_fuel (digest : String → String) (data : List FieldElement)
    (f i : Nat) (h1 : 1 ≤ i) (hlen : 1 ≤ data.length) (hf : data.length ≤ 2 ^ f * i) :
    nodeHash digest data i = nodeHashAux digest data (f + 1) i := by
  unfold nodeHash
  obtain ⟨m, hm⟩ : ∃ m, data.length = m + 1 := ⟨data.length - 1, by omega⟩
  have hcongr := nodeHashAux_congr digest data m f i ?_ hf
  · rw [← hcongr, hm]
  · have h2 : data.length ≤ 2 ^ m := by
      have := le_two_pow_pred data.length hlen
      rw [hm] at this ⊢
      simpa using this
    calc data.length ≤ 2 ^ m := h2
      _ = 2 ^ m * 1 := by ring
      _ ≤ 2 ^ m * i := Nat.mul_le_mul_left _ h1

/-- Unfolding nodeHash at a leaf node. -/
theorem nodeHash_leaf (digest : String → String) (data : List FieldElement)
    (i : Nat) (hlen : 1 ≤ data.length) (h : data.length ≤ i) :
    nodeHash digest data i =
      digest (feToString (data.getD (i - data.length) FieldElement.zero)) := by
  unfold nodeHash
  obtain ⟨m, hm⟩ : ∃ m, data.length = m + 1 := ⟨data.length - 1, by omega⟩
  rw [hm, nodeHashAux, if_pos (by omega)]
  rw [hm]

/-- Unfolding nodeHash at an internal node into the canonical digests of its
two children. -/
theorem nodeHash_internal (digest : String → String) (data : List FieldElement)
    (i : Nat) (h1 : 1 ≤ i) (h2 : i < data.length) :
    nodeHash digest data i =
      digest (nodeHash digest data (2 * i) ++ nodeHash digest data (2 * i + 1)) := by
  have hlen : 1 ≤ data.length := by omega
  obtain ⟨m, hm⟩ : ∃ m, data.length = m + 1 := ⟨data.length - 1, by omega⟩
  have hml : data.length ≤ 2 ^ m := by
    have := le_two_pow_pred data.length hlen
    rw [hm] at this ⊢
    simpa using this
  have hstep : nodeHash digest data i = nodeHashAux digest data (m + 1) i := by
    rw [nodeHash, hm]
  rw [hstep, nodeHashAux, if_neg (by omega)]
  cases m with
  | zero =>
    have : data.length = 1 := hm
    omega
  | succ m =>
    have hcl : data.length ≤ 2 ^ m * (2 * i) := by
      rw [pow_succ] at hml
      calc data.length ≤ 2 ^ m * 2 := hml
        _ ≤ 2 ^ m * (2 * i) := Nat.mul_le_mul_left _ (by omega)
    have hcr : data.length ≤ 2 ^ m * (2 * i + 1) :=
      le_trans hcl (Nat.mul_le_mul_left _ (by omega))
    rw [← nodeHash_fuel digest data m (2 * i) (by omega) hlen hcl,
      ← nodeHash_fuel digest data m (2 * i + 1) (by omega) hlen hcr]

/-- Unfolding buildNode at a leaf node. -/
theorem buildNode_leaf (digest : String → String) (data : List FieldElement)
    (f i : Nat) (facts : List FactEntry) (h : data.length ≤ i) :
    buildNode digest data (f + 1) i facts =
      (digest (feToString (data.getD (i - data.length) FieldElement.zero)),
        (digest (feToString (data.getD (i - data.length) FieldElement.zero)),
          feToString (data.getD (i - data.length) FieldElement.zero), "") :: facts) := by
  rw [buildNode, if_pos h]

/-- Unfolding buildNode at an internal node. -/
theorem buildNode_internal (digest : String → String) (data : List FieldElement)
    (f i : Nat) (facts : List FactEntry) (h : ¬ data.length ≤ i) :
    buildNode digest data (f + 1) i facts =
      (digest ((buildNode digest data f (2 * i) facts).1 ++
          (buildNode digest data f (2 * i + 1) (buildNode digest data f (2 * i) facts).2).1),
        (digest ((buildNode digest data f (2 * i) facts).1 ++
            (buildNode digest data f (2 * i + 1) (buildNode digest data f (2 * i) facts).2).1),
          (buildNode digest data f (2 * i) facts).1,
          (buildNode digest data f (2 * i + 1) (buildNode digest data f (2 * i) facts).2).1) ::
          (buildNode digest data f (2 * i + 1) (buildNode digest data f (2 * i) facts).2).2) := by
  rw [buildNode, if_neg h]

/-- The digest built for a node is its canonical node digest. -/
theorem buildNode_fst (digest : String → String) (data : List FieldElement) :
    ∀ (f i : Nat) (facts : List FactEntry), data.length ≤ 2 ^ f * i →
      (buildNode digest data (f + 1) i facts).1 = nodeHashAux digest data (f + 1) i := by
  intro f
  induction f with
  | zero =>
    intro i facts hf
    have hi : data.length ≤ i := by simpa using hf
    rw [buildNode_leaf digest data 0 i facts hi, nodeHashAux, if_pos hi]
  | succ f ih =>
    intro i facts hf
    by_cases hi : data.length ≤ i
    · rw [buildNode_leaf digest data (f + 1) i facts hi, nodeHashAux, if_pos hi]
    · rw [buildNode_internal digest data (f + 1) i facts hi, nodeHashAux, if_neg hi]
      have hfl : data.length ≤ 2 ^ f * (2 * i) := by
        rw [pow_succ] at hf
        calc data.length ≤ 2 ^ f * 2 * i := hf
          _ = 2 ^ f * (2 * i) := by ring
      have hfr : data.length ≤ 2 ^ f * (2 * i + 1) :=
        le_trans hfl (Nat.mul_le_mul_left _ (by omega))
      rw [ih (2 * i) facts hfl, ih (2 * i + 1) _ hfr]

/-- Entries of the incoming facts map survive a build. -/
theorem buildNode_mono (digest : String → String) (data : List FieldElement) :
    ∀ (f i : Nat) (facts : List FactEntry) (e : FactEntry),
      e ∈ facts → e ∈ (buildNode digest data f i facts).2 := by
  intro f
  induction f with
  | zero =>
    intro i facts e he
    exact he
  | succ f ih =>
    intro i facts e he
    by_cases hi : data.length ≤ i
    · rw [buildNode_leaf digest data f i facts hi]
      exact List.mem_cons_of_mem _ he
    · rw [buildNode_internal digest data f i facts hi]
      exact List.mem_cons_of_mem _ (ih (2 * i + 1) _ e (ih (2 * i) facts e he))

/-- The facts list resulting from an internal build step, as an explicit cons. -/
theorem buildNode_internal_snd (digest : String → String) (data : List FieldElement)
    (f i : Nat) (facts : List FactEntry) (h : ¬ data.length ≤ i) :
    (buildNode digest data (f + 1) i facts).2 =
      (digest ((buildNode digest data f (2 * i) facts).1 ++
          (buildNode digest data f (2 * i + 1) (buildNode digest data f (2 * i) facts).2).1),
        (buildNode digest data f (2 * i) facts).1,
        (buildNode digest data f (2 * i + 1) (buildNode digest data f (2 * i) facts).2).1) ::
        (buildNode digest data f (2 * i + 1) (buildNode digest data f (2 * i) facts).2).2 := by
  rw [buildNode_internal digest data f i facts h]

/-- Every internal node of the subtree built below node i deposits its fact
(digest key, left child digest, right child digest) into the facts map. -/
theorem buildNode_mem (digest : String → String) (data : List FieldElement) :
    ∀ (f i : Nat) (facts : List FactEntry) (j k : Nat),
      data.length ≤ 2 ^ f * i → j / 2 ^ k = i → j < data.length → 1 ≤ i →
      (nodeHash digest data j, nodeHash digest data (2 * j), nodeHash digest data (2 * j + 1))
        ∈ (buildNode digest data (f + 1) i facts).2 := by
  intro f
  induction f with
  | zero =>
    intro i facts j k hf hk hj hi
    have hle : i ≤ j := hk ▸ Nat.div_le_self j (2 ^ k)
    have : data.length ≤ i := by simpa using hf
    omega
  | succ f ih =>
    intro i facts j k hf hk hj hi
    by_cases hleaf : data.length ≤ i
    · have hle : i ≤ j := hk ▸ Nat.div_le_self j (2 ^ k)
      omega
    · have hlen1 : 1 ≤ data.length := by omega
      have hfl : data.length ≤ 2 ^ f * (2 * i) := by
        rw [pow_succ] at hf
        calc data.length ≤ 2 ^ f * 2 * i := hf
          _ = 2 ^ f * (2 * i) := by ring
      have hfr : data.length ≤ 2 ^ f * (2 * i + 1) :=
        le_trans hfl (Nat.mul_le_mul_left _ (by omega))
      rw [buildNode_internal_snd digest data (f + 1) i facts hleaf]
      cases k with
      | zero =>
        have hji : j = i := by simpa using hk
        subst hji
        have hl1 : (buildNode digest data (f + 1) (2 * j) facts).1
            = nodeHash digest data (2 * j) := by
          rw [buildNode_fst digest data f (2 * j) facts hfl,
            ← nodeHash_fuel digest data f (2 * j) (by omega) hlen1 hfl]
        have hr1 : (buildNode digest data (f + 1) (2 * j + 1)
              (buildNode digest data (f + 1) (2 * j) facts).2).1
            = nodeHash digest data (2 * j + 1) := by
          rw [buildNode_fst digest data f (2 * j + 1) _ hfr,
            ← nodeHash_fuel digest data f (2 * j + 1) (by omega) hlen1 hfr]
        rw [hl1, hr1, ← nodeHash_internal digest data j hi hj]
        exact List.mem_cons_self _ _
      | succ k =>
        have hc : j / 2 ^ k / 2 = i := by
          rw [Nat.div_div_eq_div_mul, ← pow_succ]
          exact hk
        have hcases : j / 2 ^ k = 2 * i ∨ j / 2 ^ k = 2 * i + 1 := by omega
        apply List.mem_cons_of_mem
        rcases hcases with hc2 | hc2
        · exact buildNode_mono digest data (f + 1) (2 * i + 1) _ _
            (ih (2 * i) facts j k hfl hc2 hj (by omega))
        · exact ih (2 * i + 1) _ j k hfr hc2 hj (by omega)

/-- In a collision-free facts map, looking a recorded digest up returns its
recorded entry. -/
theorem find_functional (F : List FactEntry) (hfun : FactsFunctional F)
    (k l r : String) (he : (k, l, r) ∈ F) :
    F.find? (fun x => x.1 == k) = some (k, l, r) := by
  cases hfind : F.find? (fun x => x.1 == k) with
  | none =>
    have := List.find?_eq_none.mp hfind (k, l, r) he
    simp at this
  | some x =>
    have hx1 := List.find?_some hfind
    have hxm : x ∈ F := List.mem_of_find?_eq_some hfind
    have hx : x = (k, l, r) := hfun x hxm (k, l, r) he (by simpa using hx1)
    rw [hx]

/-- The path recorded by authSiblings has one digest per bit. -/
theorem authSiblings_length (digest : String → String) (data : List FieldElement) :
    ∀ (bits : List Bool) (i : Nat),
      (authSiblings digest data i bits).length = bits.length := by
  intro bits
  induction bits with
  | nil => intro i; rfl
  | cons b bs ih =>
    intro i
    rw [authSiblings, List.length_cons, List.length_cons, ih]

/-- The facts-map walk of get_authentication_path returns exactly the sibling
digests along the descent, provided the facts map is collision-free and
records every internal node of the walk. -/
theorem authPathLoop_spec (digest : String → String) (data : List FieldElement)
    (F : List FactEntry) (hfun : FactsFunctional F)
    (hmem : ∀ j, 1 ≤ j → j < data.length →
      (nodeHash digest data j, nodeHash digest data (2 * j), nodeHash digest data (2 * j + 1))
        ∈ F) :
    ∀ (bits : List Bool) (i : Nat), 1 ≤ i →
      (∀ t, t < bits.length → walk i (bits.take t) < data.length) →
      authPathLoop F bits (nodeHash digest data i) =
        some (authSiblings digest data i bits) := by
  intro bits
  induction bits with
  | nil =>
    intro i hi hcond
    rfl
  | cons b bs ih =>
    intro i hi hcond
    have hilen : i < data.length := by
      have h0 := hcond 0 (by simp)
      simpa [walk_nil] using h0
    have hentry := hmem i hi hilen
    rw [authPathLoop, find_functional F hfun _ _ _ hentry, authSiblings]
    rcases b with _ | _
    · have hc : ∀ t, t < bs.length → walk (2 * i) (bs.take t) < data.length := by
        intro t ht
        have := hcond (t + 1) (by simpa using Nat.succ_lt_succ ht)
        rw [List.take_succ_cons, walk_cons] at this
        simpa using this
      have := ih (2 * i) (by omega) hc
      simp only [this]
      rfl
    · have hc : ∀ t, t < bs.length → walk (2 * i + 1) (bs.take t) < data.length := by
        intro t ht
        have := hcond (t + 1) (by simpa using Nat.succ_lt_succ ht)
        rw [List.take_succ_cons, walk_cons] at this
        simpa using this
      have := ih (2 * i + 1) (by omega) hc
      simp only [this]
      rfl

/-- Folding the verification step over the reversed bits zipped with the
reversed sibling path carries the digest of the walked-to node back up to the
digest of the start node. -/
theorem replay_fold_spec (digest : String → String) (data : List FieldElement) :
    ∀ (bits : List Bool) (i : Nat), 1 ≤ i →
      (∀ t, t < bits.length → walk i (bits.take t) < data.length) →
      (bits.reverse.zip (authSiblings digest data i bits).reverse).foldl
        (fun cur bp => if bp.1 then digest (bp.2 ++ cur) else digest (cur ++ bp.2))
        (nodeHash digest data (walk i bits)) = nodeHash digest data i := by
  intro bits
  induction bits with
  | nil =>
    intro i hi hcond
    rfl
  | cons b bs ih =>
    intro i hi hcond
    have hilen : i < data.length := by
      have h0 := hcond 0 (by simp)
      simpa [walk_nil] using h0
    have hc : ∀ t, t < bs.length →
        walk (2 * i + (if b then 1 else 0)) (bs.take t) < data.length := by
      intro t ht
      have := hcond (t + 1) (by simpa using Nat.succ_lt_succ ht)
      rwa [List.take_succ_cons, walk_cons] at this
    rw [authSiblings, List.reverse_cons, List.reverse_cons,
      List.zip_append (by rw [List.length_reverse, List.length_reverse,
        authSiblings_length]), List.foldl_append, walk_cons]
    have hinner := ih (2 * i + (if b then 1 else 0)) (by omega) hc
    rw [hinner]
    rcases b with _ | _
    · exact (nodeHash_internal digest data i hi hilen).symm
    · exact (nodeHash_internal digest data i hi hilen).symm

/-- getD on a replicate list returns the replicated element whatever the
index (in range or out, where the default equals it). -/
theorem getD_replicate_self (k : Nat) (z : FieldElement) :
    ∀ n : Nat, (List.replicate k z).getD n z = z := by
  induction k with
  | zero =>
    intro n
    cases n <;> rfl
  | succ k ih =>
    intro n
    cases n with
    | zero => rfl
    | succ n => exact ih n

/-- Inversion of a successful tree construction: the stored fields of the
tree in terms of the input and the computed leaf-count exponent. -/
theorem merkleNew_some (digest : String → String) (h : Nat) (data : List FieldElement)
    (t : MerkleTree) (ht : merkleNew digest h data = some t) :
    data ≠ [] ∧ h ≤ 31 ∧
    t.data = data.take (2 ^ h) ++
      List.replicate (2 ^ h - data.length) FieldElement.zero ∧
    t.height = clog2 data.length ∧
    t.root = (buildNode digest t.data t.data.length 1 []).1 ∧
    t.facts = (buildNode digest t.data t.data.length 1 []).2 := by
  unfold merkleNew at ht
  by_cases hd : data.isEmpty = true ∨ 32 ≤ h
  · rw [if_pos hd] at ht
    cases ht
  · rw [if_neg hd] at ht
    push_neg at hd
    have hX := (Option.some.inj ht).symm
    subst hX
    exact ⟨fun hc => hd.1 (by rw [hc]; rfl), by omega, rfl, rfl, rfl, rfl⟩

/-- The data stored by the resize has length exactly 2 ^ h, whether the
resize padded (input not longer than 2 ^ h) or truncated. -/
theorem padded_length (h : Nat) (data : List FieldElement) :
    (data.take (2 ^ h) ++
      List.replicate (2 ^ h - data.length) FieldElement.zero).length = 2 ^ h := by
  rw [List.length_append, List.length_take, List.length_replicate]
  omega

/-- A leaf index below both the input length and 2 ^ h reads the input leaf
through the resized data, whether the resize padded or truncated. -/
theorem getD_padded (h : Nat) (data : List FieldElement) (i : Nat)
    (hi : i < data.length) (hh : i < 2 ^ h) :
    (data.take (2 ^ h) ++
      List.replicate (2 ^ h - data.length) FieldElement.zero).getD i FieldElement.zero
      = data.getD i FieldElement.zero := by
  rw [List.getD_append _ _ _ i (by rw [List.length_take]; omega)]
  rw [List.getD_eq_getElem?_getD, List.getD_eq_getElem?_getD, List.getElem?_take,
    if_pos hh]

/-- Every positive j is sent to 1 by shifting out its lower bits. -/
theorem div_pow_pathBits_length (j : Nat) (hj : 1 ≤ j) :
    j / 2 ^ (pathBits j).length = 1 := by
  have h := walk_take (pathBits j) 1 0 (Nat.zero_le _)
  rw [List.take_zero, walk_nil, walk_pathBits j hj] at h
  simpa using h.symm

/-- Every internal node of a successfully built tree has its fact recorded in
the facts map. -/
theorem tree_facts_mem (digest : String → String) (h : Nat) (data : List FieldElement)
    (t : MerkleTree) (ht : merkleNew digest h data = some t) :
    ∀ j, 1 ≤ j → j < t.data.length →
      (nodeHash digest t.data j, nodeHash digest t.data (2 * j),
        nodeHash digest t.data (2 * j + 1)) ∈ t.facts := by
  obtain ⟨-, -, -, -, -, hfacts⟩ := merkleNew_some digest h data t ht
  intro j h1 hj
  rw [hfacts]
  have hN : 1 ≤ t.data.length := by omega
  obtain ⟨m, hm⟩ : ∃ m, t.data.length = m + 1 := ⟨t.data.length - 1, by omega⟩
  have hcond : t.data.length ≤ 2 ^ m * 1 := by
    have := le_two_pow_pred t.data.length hN
    rw [hm] at this ⊢
    simpa using this
  have hk : j / 2 ^ (pathBits j).length = 1 := div_pow_pathBits_length j h1
  have := buildNode_mem digest t.data m 1 [] j (pathBits j).length hcond hk hj le_rfl
  rw [hm]
  exact this

/-- The root of a successfully built tree is the canonical digest of heap
node 1. -/
theorem tree_root_eq (digest : String → String) (h : Nat) (data : List FieldElement)
    (t : MerkleTree) (ht : merkleNew digest h data = some t) (hN : 1 ≤ t.data.length) :
    t.root = nodeHash digest t.data 1 := by
  obtain ⟨-, -, -, -, hroot, -⟩ := merkleNew_some digest h data t ht
  rw [hroot]
  obtain ⟨m, hm⟩ : ∃ m, t.data.length = m + 1 := ⟨t.data.length - 1, by omega⟩
  have hcond : t.data.length ≤ 2 ^ m * 1 := by
    have := le_two_pow_pred t.data.length hN
    rw [hm] at this ⊢
    simpa using this
  conv_lhs => rw [hm]
  rw [buildNode_fst digest t.data m 1 [] hcond,
    ← nodeHash_fuel digest t.data m 1 le_rfl hN hcond]

/-- All strict ancestors of a leaf node of a 2^c-leaf tree are internal. -/
theorem pathBits_walk_lt (c leafId : Nat) (hid : leafId < 2 ^ c) :
    ∀ t', t' < (pathBits (leafId + 2 ^ c)).length →
      walk 1 ((pathBits (leafId + 2 ^ c)).take t') < 2 ^ c := by
  intro t' ht'
  have hn1 : 2 ^ c ≤ leafId + 2 ^ c := by omega
  have hn2 : leafId + 2 ^ c < 2 ^ (c + 1) := by
    rw [pow_succ]
    omega
  rw [walk_take _ 1 t' (le_of_lt ht'), walk_pathBits _ (by omega)]
  have h2le : (2:Nat) ≤ 2 ^ ((pathBits (leafId + 2 ^ c)).length - t') := by
    have h1t : 1 ≤ (pathBits (leafId + 2 ^ c)).length - t' := by omega
    calc (2:Nat) = 2 ^ 1 := by norm_num
      _ ≤ _ := Nat.pow_le_pow_right (by norm_num) h1t
  have hdd : (leafId + 2 ^ c) / 2 ^ ((pathBits (leafId + 2 ^ c)).length - t')
      ≤ (leafId + 2 ^ c) / 2 := Nat.div_le_div_left h2le (by norm_num)
  omega

/-- For a leaf index valid for a successfully built tree with collision-free
facts, get_authentication_path returns exactly the top-down sibling digests,
whatever exponent the f32 computation produced. -/
theorem getAuthPath_some (digest : String → String) (h : Nat) (data : List FieldElement)
    (t : MerkleTree) (leafId : Nat) (ht : merkleNew digest h data = some t)
    (hfun : FactsFunctional t.facts) (hid : leafId < t.data.length) :
    getAuthenticationPath t leafId =
      some (authSiblings digest t.data 1 (pathBits (leafId + t.data.length))) := by
  have hN : t.data.length = 2 ^ h := by
    obtain ⟨-, -, hdata, -, -, -⟩ := merkleNew_some digest h data t ht
    rw [hdata, padded_length]
  have hN1 : 1 ≤ t.data.length := by
    rw [hN]
    have := pow_pos (show (0:Nat) < 2 by norm_num) h
    omega
  have hcond : ∀ t', t' < (pathBits (leafId + t.data.length)).length →
      walk 1 ((pathBits (leafId + t.data.length)).take t') < t.data.length := by
    rw [hN]
    exact pathBits_walk_lt h leafId (by omega)
  unfold getAuthenticationPath
  rw [if_pos hid, tree_root_eq digest h data t ht hN1]
  exact authPathLoop_spec digest t.data t.facts hfun (tree_facts_mem digest h data t ht)
    (pathBits (leafId + t.data.length)) 1 le_rfl hcond

/-- Claim C9: for a successfully built tree whose facts map is collision-free
(with h the leaf-count exponent the f32 expression of the source produced,
the theorem holding for every value), get_authentication_path fails
(IndexError, modelled none) exactly when leaf_id is at least the number of
stored leaves, and otherwise returns the sibling digests ordered from the
root level down to the leaf level, as prescribed by the bits of
leaf_id + num_leaves after the leading one, most-significant first: right
sibling on bit 0, left sibling on bit 1. -/
theorem c9_auth_path_spec (digest : String → String) (h : Nat)
    (data : List FieldElement) (t : MerkleTree) (leafId : Nat)
    (ht : merkleNew digest h data = some t) (hfun : FactsFunctional t.facts) :
    (t.data.length ≤ leafId → getAuthenticationPath t leafId = none) ∧
    (leafId < t.data.length →
      getAuthenticationPath t leafId =
        some (authSiblings digest t.data 1 (pathBits (leafId + t.data.length)))) := by
  constructor
  · intro hge
    unfold getAuthenticationPath
    rw [if_neg (by omega)]
  · intro hlt
    exact getAuthPath_some digest h data t leafId ht hfun hlt

/-- Witness for claim C9 on the concrete two-leaf tree over the identity
digest: the out-of-range index 2 fails and index 0 yields the recorded
sibling walk. -/
theorem c9_auth_path_spec_witness :
    getAuthenticationPath treeTwo 2 = none ∧
    getAuthenticationPath treeTwo 0 =
      some (authSiblings (fun x => x) treeTwo.data 1 (pathBits (0 + treeTwo.data.length))) := by
  have hc := c9_auth_path_spec (fun x => x) 1 [FieldElement.new 1, FieldElement.new 2]
    treeTwo 2 (by decide) (by decide)
  have hc0 := c9_auth_path_spec (fun x => x) 1 [FieldElement.new 1, FieldElement.new 2]
    treeTwo 0 (by decide) (by decide)
  exact ⟨hc.1 (by decide), hc0.2 (by decide)⟩

/-- Claim C2: the Merkle round trip.  For every digest function, every
leaf-count exponent h the f32 expression of the source may produce (resize
truncating or padding accordingly), every successfully built tree with
collision-free facts, and every leaf index valid both for the input sequence
and for the constructed tree, verify_decommitment accepts the leaf value
against the tree root along the path the tree returns. -/
theorem c2_merkle_round_trip (digest : String → String) (h : Nat)
    (data : List FieldElement) (t : MerkleTree) (leafId : Nat) (path : List String)
    (ht : merkleNew digest h data = some t) (hfun : FactsFunctional t.facts)
    (hidData : leafId < data.length) (hidTree : leafId < t.data.length)
    (hpath : getAuthenticationPath t leafId = some path) :
    verifyDecommitment digest leafId (data.getD leafId FieldElement.zero) path t.root
      = some true := by
  obtain ⟨hne, h31, hdata, -, -, -⟩ := merkleNew_some digest h data t ht
  have hN : t.data.length = 2 ^ h := by
    rw [hdata, padded_length]
  rw [getAuthPath_some digest h data t leafId ht hfun hidTree] at hpath
  have hpe := Option.some.inj hpath
  subst hpe
  have hn1 : 2 ^ h ≤ leafId + t.data.length := by omega
  have hn2 : leafId + t.data.length < 2 ^ (h + 1) := by
    rw [pow_succ]
    omega
  have hbitsL : (pathBits (leafId + t.data.length)).length = h :=
    pathBits_length_of h _ hn1 hn2
  have hplen : (authSiblings digest t.data 1 (pathBits (leafId + t.data.length))).length
      = h := by
    rw [authSiblings_length, hbitsL]
  have h2c : 2 ^ h ≤ 2 ^ 31 := Nat.pow_le_pow_right (by norm_num) h31
  have h32 : (2:Nat) ^ 32 = 2 * 2 ^ 31 := by norm_num
  have hcnd : (authSiblings digest t.data 1 (pathBits (leafId + t.data.length))).length < 32 ∧
      leafId + 2 ^ (authSiblings digest t.data 1
        (pathBits (leafId + t.data.length))).length < 2 ^ 32 := by
    constructor
    · omega
    · rw [hplen]
      omega
  unfold verifyDecommitment
  rw [if_pos hcnd]
  have hcond : ∀ t', t' < (pathBits (leafId + t.data.length)).length →
      walk 1 ((pathBits (leafId + t.data.length)).take t') < t.data.length := by
    rw [hN]
    exact pathBits_walk_lt h leafId (by omega)
  have hP : replayChain digest leafId (data.getD leafId FieldElement.zero)
      (authSiblings digest t.data 1 (pathBits (leafId + t.data.length))) = t.root := by
    unfold replayChain
    rw [hplen, ← hN]
    have hstart : digest (feToString (data.getD leafId FieldElement.zero))
        = nodeHash digest t.data (leafId + t.data.length) := by
      rw [nodeHash_leaf digest t.data (leafId + t.data.length) (by omega) (by omega)]
      rw [show leafId + t.data.length - t.data.length = leafId from by omega]
      rw [hdata, getD_padded h data leafId hidData (by omega)]
    rw [hstart]
    have hfold := replay_fold_spec digest t.data
      (pathBits (leafId + t.data.length)) 1 le_rfl hcond
    rw [walk_pathBits _ (by omega)] at hfold
    rw [hfold, tree_root_eq digest h data t ht (by omega)]
  rw [hP]
  simp

/-- Witness for claim C2 on the concrete two-leaf tree over the identity
digest at leaf index 0. -/
theorem c2_merkle_round_trip_witness :
    verifyDecommitment (fun x => x) 0
      ([FieldElement.new 1, FieldElement.new 2].getD 0 FieldElement.zero)
      ["2"] treeTwo.root = some true :=
  c2_merkle_round_trip (fun x => x) 1 [FieldElement.new 1, FieldElement.new 2]
    treeTwo 0 ["2"] (by decide) (by decide) (by decide) (by decide) (by decide)

/-- Claim C8 (status code_bug): the faithful model evaluated at the failing
input.  At input length 2^24 + 1 the usize to f32 cast of merkle.rs line 15
rounds ties-to-even to exactly 2^24, log2 of that exact power of two is 24.0,
and the computed exponent is 24, so num_leaves = 2^24 is smaller than the
input length and Vec::resize truncates the stored leaves: the stored leaf
count falls below the input length instead of being the smallest power of two
at least it (2^25), and the last input leaf is silently dropped, contrary to
the claim and to the padding intent of the specification. -/
theorem c8_f32_truncation :
    (merkleNew (fun x => x) 24 (List.replicate (2 ^ 24 + 1) FieldElement.zero)).map
        (fun t => t.data.length) = some (2 ^ 24) ∧
    (2 ^ 24 : Nat) <
      (List.replicate (2 ^ 24 + 1) (FieldElement.zero : FieldElement)).length := by
  constructor
  · have hg : ¬((List.replicate (2 ^ 24 + 1) FieldElement.zero).isEmpty = true ∨
        32 ≤ 24) := by
      rintro (hc | hc)
      · rw [List.isEmpty_replicate] at hc
        norm_num at hc
      · norm_num at hc
    unfold merkleNew
    rw [if_neg hg]
    simp only [Option.map_some']
    exact congrArg some (padded_length 24 _)
  · rw [List.length_replicate]
    norm_num

/-- Claim C3 counterexample: at leaf_id = u32::MAX with a one-element path the
u32 sum leaf_id + leaf_num overflows, so an overflow-checked build of
verify_decommitment aborts instead of returning a boolean. -/
theorem c3_verify_counterexample :
    verifyDecommitment (fun x => x) 4294967295 FieldElement.one ["x"] "r" = none := by
  decide

/-- Claim C3 as amended: for every input whose path has fewer than 32 entries
and whose node id leaf_id + 2 ^ path.length stays below 2^32, the verifier
returns a boolean and never aborts, and that boolean is exactly the comparison
of the replayed digest chain against the claimed root (a mismatch is reported
solely as the value false). -/
theorem c3_verify_total_spec (digest : String → String) (leafId : Nat)
    (leafData : FieldElement) (path : List String) (root : String)
    (h1 : path.length < 32) (h2 : leafId + 2 ^ path.length < 2 ^ 32) :
    verifyDecommitment digest leafId leafData path root =
      some (decide (replayChain digest leafId leafData path = root)) := by
  unfold verifyDecommitment
  rw [if_pos ⟨h1, h2⟩]

/-- Witness for the amended claim C3 on a concrete accepting input. -/
theorem c3_verify_total_spec_witness :
    verifyDecommitment (fun _ => "h") 0 FieldElement.one ["x"] "h" =
      some (decide (replayChain (fun _ => "h") 0 FieldElement.one ["x"] = "h")) :=
  c3_verify_total_spec (fun _ => "h") 0 FieldElement.one ["x"] "h"
    (by norm_num) (by norm_num)
